import Mathlib

/-!
Verification of the numerical core and the geometry loaders of the
`ME_5920` analysis script (`HW2_592_SciSim2`).

The script's arithmetic is embedded over `ℝ` (exact arithmetic idealising
float64).  `np.linalg.eigh` is an external numeric eigensolver; its output
`(eigenvalues, eigenvectors)` is passed to the embedded functions as an
explicit argument, and theorems that depend on it being a genuine
eigendecomposition of the covariance state that contract as a hypothesis.
-/

namespace HW2

/-- `np.mean(X, axis=0)` (line 98): column-wise empirical mean of an
`n × d` sample matrix. -/
noncomputable def colMean {n d : ℕ} (X : Fin n → Fin d → ℝ) (j : Fin d) : ℝ :=
  (∑ i, X i j) / n

/-- `X - X_mean` (line 99): subtract the column mean from every row. -/
noncomputable def center {n d : ℕ} (X : Fin n → Fin d → ℝ) : Fin n → Fin d → ℝ :=
  fun i j => X i j - colMean X j

/-- `np.cov(Y, rowvar=False)` (lines 100 and 122): `np.cov` subtracts the
column mean of its argument and divides by `N - 1` (default `ddof = 1`,
the unbiased estimator). -/
noncomputable def npCov {n d : ℕ} (Y : Fin n → Fin d → ℝ) : Fin d → Fin d → ℝ :=
  fun j k => (∑ i, (Y i j - colMean Y j) * (Y i k - colMean Y k)) / ((n : ℝ) - 1)

/-- The comparison used to model `np.argsort w`: sort indices by value,
equal values kept in original index order (stable tie handling, which is
what sorting an index list by value amounts to). -/
def ltIdx {d : ℕ} (w : Fin d → ℝ) (a b : Fin d) : Prop :=
  w a < w b ∨ (w a = w b ∧ a ≤ b)

noncomputable instance ltIdxDecidable {d : ℕ} (w : Fin d → ℝ) :
    DecidableRel (ltIdx w) :=
  fun _ _ => instDecidableOr

/-- `np.argsort(eigenvalues)[::-1]` (lines 102 and 124): the ascending
argsort of `w`, reversed.  Modelled as a stable ascending sort of the
index list `[0, …, d-1]` by value, then reversed. -/
noncomputable def argsortDesc {d : ℕ} (w : Fin d → ℝ) : List (Fin d) :=
  ((List.finRange d).insertionSort (ltIdx w)).reverse

/-- Position `k` of `np.argsort(eigenvalues)[::-1]`: the original index of
the `k`-th eigenpair after the reordering on lines 103 and 125. -/
noncomputable def sortIdx {d : ℕ} (w : Fin d → ℝ) (k : Fin d) : Fin d :=
  (argsortDesc w).get ⟨k.val, by
    simp [argsortDesc, k.isLt]⟩

/-- The `params` dict returned by `pca_whitening` / `whiten_image`
(keys `mean` and `matrix` / `whitening_matrix`). -/
structure PcaParams (d : ℕ) where
  mean : Fin d → ℝ
  matrix : Fin d → Fin d → ℝ

/-- `eigenvectors @ np.diag(1.0 / np.sqrt(eigenvalues + epsilon))`
(lines 104 and 126), after the columns of `eigenvectors` and the entries
of `eigenvalues` have been permuted by `idx` (lines 103 and 125).
`w`, `V` are the output of `np.linalg.eigh(cov)`. -/
noncomputable def whiteningMatrix {d : ℕ} (w : Fin d → ℝ) (V : Fin d → Fin d → ℝ)
    (eps : ℝ) : Fin d → Fin d → ℝ :=
  fun j k => V j (sortIdx w k) * (1 / Real.sqrt (w (sortIdx w k) + eps))

/-- `pca_whitening(X, epsilon)` (lines 93–107).  `w`, `V` stand for the
output of the external call `np.linalg.eigh(cov)` on line 101. -/
noncomputable def pca_whitening {n d : ℕ} (X : Fin n → Fin d → ℝ) (eps : ℝ)
    (w : Fin d → ℝ) (V : Fin d → Fin d → ℝ) :
    (Fin n → Fin d → ℝ) × PcaParams d :=
  (fun i k => ∑ j, center X i j * whiteningMatrix w V eps j k,
   ⟨colMean X, whiteningMatrix w V eps⟩)

/-- `img.reshape(-1, C)` (line 119), row-major: matrix row `r * W + s`
holds pixel `(r, s)`. -/
noncomputable def img2mat {h wd c : ℕ} (img : Fin h → Fin wd → Fin c → ℝ) :
    Fin (h * wd) → Fin c → ℝ :=
  fun i k => img (finProdFinEquiv.symm i).1 (finProdFinEquiv.symm i).2 k

/-- `X_whitened.reshape(H, W, C)` (line 128), row-major. -/
noncomputable def mat2img {h wd c : ℕ} (M : Fin (h * wd) → Fin c → ℝ) :
    Fin h → Fin wd → Fin c → ℝ :=
  fun r s k => M (finProdFinEquiv (r, s)) k

/-- The array type produced for one final-geometry file and for one run's
stacked input blocks: shape `(3, 17, 12, 3)`. -/
abbrev Geom : Type := Fin 3 → Fin 17 → Fin 12 → Fin 3 → ℝ

/-- Lines 29–32 of `load_input_geometry`: `lines[5:209]` (the data rows at
1-indexed lines 6–209), each row with its last column dropped
(`[:, :-1]`).  A file is modelled as its whitespace-split, float-parsed
lines: a list of rows of reals (tokenisation of the text is abstracted). -/
def inputRows (file : List (List ℝ)) : List (List ℝ) :=
  ((file.drop 5).take 204).map List.dropLast

/-- `np.array(...)[:, :-1].reshape(17, 12, 3)` (line 32).  The chain
succeeds on the file format the script expects — 204 extracted rows that
each have 3 entries after the last column is dropped — and the row-major
reshape puts row `a*12 + b`, entry `c` at position `(a, b, c)`; on any
other shape the `reshape` (or the rectangular `np.array` construction)
raises, modelled as `none`. -/
noncomputable def parseBlock (file : List (List ℝ)) :
    Option (Fin 17 → Fin 12 → Fin 3 → ℝ) :=
  if (inputRows file).length = 204 ∧ ∀ r ∈ inputRows file, r.length = 3 then
    some (fun a b c => ((inputRows file).getD (a.val * 12 + b.val) []).getD c.val 0)
  else none

/-- The run keys `f"run{i}"` for `i in range(1, 65)` (lines 21–22). -/
def runKeys : List String :=
  (List.range 64).map (fun i => "run" ++ toString (i + 1))

/-- `load_input_geometry` (lines 18–35).  The directory tree is modelled
by `fs`, mapping a run number and a file number `j` (the `j` of
`smesh.1.{j}.txt`) to that file's parsed lines.  The insertion-ordered
dict is modelled as a list of key/value pairs; `np.array(file_contents)`
(line 34) stacks the 3 blocks so index `t` selects the block of file
`t+1`.  A parse failure anywhere aborts the whole call (`none`). -/
noncomputable def load_input_geometry (fs : ℕ → ℕ → List (List ℝ)) :
    Option (List (String × Geom)) :=
  (List.range 64).mapM (fun i =>
    ((List.range 3).mapM (fun j => parseBlock (fs (i + 1) (j + 1)))).map
      (fun blocks =>
        ("run" ++ toString (i + 1),
         fun (t : Fin 3) a b c => (blocks.getD t.val (fun _ _ _ => 0)) a b c)))

/-- The `(timestep, temperature, pressure)` combinations of
`load_final_geometry` in the iteration order of lines 45–47: timestep
outermost, then pressure, then temperature innermost. -/
def combos : List (ℕ × String × String) :=
  [80, 140].flatMap (fun ts =>
    ["p1", "p2", "p3"].flatMap (fun p =>
      ["t1", "t2", "t3", "t4", "t5"].map (fun t => (ts, t, p))))

/-- `f"{timestep}_{temperature}_{pressure}"` (line 56). -/
def finalLabel (cb : ℕ × String × String) : String :=
  toString cb.1 ++ "_" ++ cb.2.1 ++ "_" ++ cb.2.2

/-- `lines[1:]` (line 53): the body of a final-geometry file with the
header line skipped. -/
def bodyRows (file : List (List ℝ)) : List (List ℝ) :=
  file.drop 1

/-- Lines 53–55: `np.split(content, 3)` then `reshape(17, 12, 3)` per
chunk, stacked.  Succeeds on the expected format — 612 body rows of 3
entries — giving chunk `t` rows `[204t, 204t+204)`, position `(a, b, c)`
reading row `t*204 + a*12 + b`, entry `c`; any other shape raises,
modelled as `none`. -/
noncomputable def parseFinal (file : List (List ℝ)) : Option Geom :=
  if (bodyRows file).length = 612 ∧ ∀ r ∈ bodyRows file, r.length = 3 then
    some (fun t a b c =>
      ((bodyRows file).getD (t.val * 204 + a.val * 12 + b.val) []).getD c.val 0)
  else none

/-- One iteration of the inner loop of `load_final_geometry`
(lines 48–57): skip a missing file (`file_path.exists()` false, modelled
as `fs … = none`), parse an existing one and append it to the run's dict
under its label. -/
noncomputable def finalStep (fs : ℕ → String → String → ℕ → Option (List (List ℝ)))
    (i : ℕ) (acc : List (String × Geom)) (cb : ℕ × String × String) :
    Option (List (String × Geom)) :=
  match fs cb.1 cb.2.1 cb.2.2 i with
  | none => some acc
  | some file => (parseFinal file).map (fun g => acc ++ [(finalLabel cb, g)])

/-- The inner loop of `load_final_geometry` for one run `i`
(lines 44–57): fold `finalStep` over the combinations, starting from the
empty dict `run_files = {}`. -/
noncomputable def loadRunFinal (fs : ℕ → String → String → ℕ → Option (List (List ℝ)))
    (i : ℕ) : Option (List (String × Geom)) :=
  combos.foldlM (finalStep fs i) []

/-- `load_final_geometry` (lines 37–60).  `fs ts temp press i` is the
content of `final_geometry/result_{ts}_{temp}_{press}_{i}` when that file
exists. -/
noncomputable def load_final_geometry
    (fs : ℕ → String → String → ℕ → Option (List (List ℝ))) :
    Option (List (String × List (String × Geom))) :=
  (List.range 64).mapM (fun k =>
    (loadRunFinal fs (k + 1)).map (fun rf => ("run" ++ toString (k + 1), rf)))

/-- Specification-side description of one entry of a run's inner dict:
`none` when the file is missing (the label is absent), otherwise the
label paired with the parsed array. -/
noncomputable def parsedEntry (fs : ℕ → String → String → ℕ → Option (List (List ℝ)))
    (i : ℕ) (cb : ℕ × String × String) : Option (String × Geom) :=
  match fs cb.1 cb.2.1 cb.2.2 i with
  | none => none
  | some file => (parseFinal file).map (fun g => (finalLabel cb, g))

/-- `whiten_image(img, epsilon)` (lines 109–130): reshape to an
`(H*W) × C` matrix of channel samples, then the same whitening steps as
`pca_whitening` (lines 120–127 repeat lines 98–105 verbatim), reshaped
back.  `w`, `V` stand for the output of `np.linalg.eigh(cov)` on
line 123. -/
noncomputable def whiten_image {h wd c : ℕ} (img : Fin h → Fin wd → Fin c → ℝ)
    (eps : ℝ) (w : Fin c → ℝ) (V : Fin c → Fin c → ℝ) :
    (Fin h → Fin wd → Fin c → ℝ) × PcaParams c :=
  (mat2img (fun i k => ∑ j, center (img2mat img) i j * whiteningMatrix w V eps j k),
   ⟨colMean (img2mat img), whiteningMatrix w V eps⟩)

/-- Concrete sample matrix used to exercise the theorems: 3 samples,
2 features, already mean-free, with covariance `diag(3, 1)`. -/
noncomputable def exX : Fin 3 → Fin 2 → ℝ := ![![1, 1], ![-2, 0], ![1, -1]]

/-- Eigenvalues of `npCov (center exX)` in the ascending order
`np.linalg.eigh` produces. -/
noncomputable def exW : Fin 2 → ℝ := ![1, 3]

/-- Orthonormal eigenvectors (as columns) matching `exW`. -/
noncomputable def exV : Fin 2 → Fin 2 → ℝ := ![![0, 1], ![1, 0]]

/-- A pair of equal eigenvalues, exhibiting the tie-break behaviour of
`np.argsort(eigenvalues)[::-1]`. -/
noncomputable def tieW : Fin 2 → ℝ := fun _ => 1

/-- A 1×1 single-channel image whose only pixel value is 7. -/
noncomputable def constImg : Fin 1 → Fin 1 → Fin 1 → ℝ := fun _ _ _ => 7

/-- The channel vector of `constImg`. -/
noncomputable def constV : Fin 1 → ℝ := fun _ => 7

/-- A concrete well-formed input-geometry directory tree: every
`smesh` file has 209 lines of 4 numbers. -/
noncomputable def exInputFS : ℕ → ℕ → List (List ℝ) :=
  fun _ _ => List.replicate 209 [1, 2, 3, 4]

/-- A concrete well-formed final-geometry file: 1 header line plus 612
data rows of 3 numbers. -/
noncomputable def exFinalFile : List (List ℝ) := List.replicate 613 [1, 2, 3]

/-- A final-geometry directory in which exactly one file exists
(`result_80_t1_p1_1`); every other combination is missing. -/
noncomputable def exFS : ℕ → String → String → ℕ → Option (List (List ℝ)) :=
  fun ts t p i =>
    if ts = 80 ∧ t = "t1" ∧ p = "p1" ∧ i = 1 then some exFinalFile else none

/-- A final-geometry directory with no files at all. -/
def emptyFS : ℕ → String → String → ℕ → Option (List (List ℝ)) :=
  fun _ _ _ _ => none

/- ------------------------------------------------------------------ -/
/- Lemmas                                                              -/
/- ------------------------------------------------------------------ -/

lemma sum_center {n d : ℕ} (X : Fin n → Fin d → ℝ) (j : Fin d) :
    ∑ i, center X i j = 0 := by
  rcases Nat.eq_zero_or_pos n with h | h
  · subst h; simp
  · have hn : (n : ℝ) ≠ 0 := Nat.cast_ne_zero.mpr h.ne'
    have hsum : ∑ i : Fin n, colMean X j = (n : ℝ) * colMean X j := by
      simp [Finset.sum_const, Finset.card_univ, nsmul_eq_mul]
    have hmul : (n : ℝ) * colMean X j = ∑ i, X i j := by
      rw [colMean]; field_simp
    simp only [center]
    rw [Finset.sum_sub_distrib, hsum, hmul, sub_self]

lemma colMean_center {n d : ℕ} (X : Fin n → Fin d → ℝ) (j : Fin d) :
    colMean (center X) j = 0 := by
  rw [colMean, sum_center, zero_div]

lemma npCov_center_eq {n d : ℕ} (X : Fin n → Fin d → ℝ) (j k : Fin d) :
    npCov (center X) j k = (∑ i, center X i j * center X i k) / ((n : ℝ) - 1) := by
  simp [npCov, colMean_center]

lemma colMean_center_mul {n d e : ℕ} (X : Fin n → Fin d → ℝ)
    (M : Fin d → Fin e → ℝ) (k : Fin e) :
    colMean (fun i k => ∑ j, center X i j * M j k) k = 0 := by
  have hz : ∀ j, ∑ i, center X i j * M j k = 0 := fun j => by
    rw [← Finset.sum_mul, sum_center, zero_mul]
  simp only [colMean]
  rw [Finset.sum_comm]
  simp [hz]

lemma argsortDesc_nodup {d : ℕ} (w : Fin d → ℝ) : (argsortDesc w).Nodup := by
  rw [argsortDesc, List.nodup_reverse]
  exact (List.perm_insertionSort _ _).nodup_iff.mpr (List.nodup_finRange d)

lemma sortIdx_injective {d : ℕ} (w : Fin d → ℝ) :
    Function.Injective (sortIdx w) := by
  intro a b hab
  have h := (List.Nodup.get_inj_iff (argsortDesc_nodup w)).mp hab
  exact Fin.ext (Fin.mk_eq_mk.mp h)

lemma sortIdx_pairs {d : ℕ} (w : Fin d → ℝ) (j k : Fin d) (hjk : j < k) :
    ltIdx w (sortIdx w k) (sortIdx w j) ∧ sortIdx w k ≠ sortIdx w j := by
  haveI : IsTotal (Fin d) (ltIdx w) := by
    constructor
    intro a b
    rcases lt_trichotomy (w a) (w b) with h | h | h
    · exact Or.inl (Or.inl h)
    · rcases le_total a b with hab | hab
      · exact Or.inl (Or.inr ⟨h, hab⟩)
      · exact Or.inr (Or.inr ⟨h.symm, hab⟩)
    · exact Or.inr (Or.inl h)
  haveI : IsTrans (Fin d) (ltIdx w) := by
    constructor
    intro a b c hab hbc
    rcases hab with hab | ⟨hab, hab2⟩
    · rcases hbc with hbc | ⟨hbc, _⟩
      · exact Or.inl (hab.trans hbc)
      · exact Or.inl (hbc ▸ hab)
    · rcases hbc with hbc | ⟨hbc, hbc2⟩
      · exact Or.inl (hab ▸ hbc)
      · exact Or.inr ⟨hab.trans hbc, hab2.trans hbc2⟩
  have hsorted : List.Pairwise (ltIdx w)
      ((List.finRange d).insertionSort (ltIdx w)) :=
    List.sorted_insertionSort (ltIdx w) (List.finRange d)
  have hnd : ((List.finRange d).insertionSort (ltIdx w)).Nodup :=
    (List.perm_insertionSort _ _).nodup_iff.mpr (List.nodup_finRange d)
  have hrev : (argsortDesc w).Pairwise (fun a b => ltIdx w b a ∧ b ≠ a) := by
    rw [argsortDesc, List.pairwise_reverse]
    exact hsorted.and hnd
  exact List.pairwise_iff_get.mp hrev
    ⟨j.val, by simp [argsortDesc, j.isLt]⟩
    ⟨k.val, by simp [argsortDesc, k.isLt]⟩
    (by exact Fin.mk_lt_mk.mpr hjk)

lemma gram_eq {n d : ℕ} (X : Fin n → Fin d → ℝ) (hne : ((n : ℝ) - 1) ≠ 0)
    (a b : Fin d) :
    ∑ i, center X i a * center X i b = ((n : ℝ) - 1) * npCov (center X) a b := by
  rw [npCov_center_eq]
  field_simp

lemma sum_mul_rearrange {n d : ℕ} (A : Fin n → Fin d → ℝ) (x y : Fin d → ℝ) :
    ∑ a, ∑ b, x a * (∑ i, A i a * A i b) * y b
      = ∑ i, (∑ a, A i a * x a) * (∑ b, A i b * y b) := by
  calc
    ∑ a, ∑ b, x a * (∑ i, A i a * A i b) * y b
        = ∑ a, ∑ b, ∑ i, x a * (A i a * A i b) * y b := by
          refine Finset.sum_congr rfl fun a _ => Finset.sum_congr rfl fun b _ => ?_
          rw [Finset.mul_sum, Finset.sum_mul]
    _ = ∑ a, ∑ i, ∑ b, x a * (A i a * A i b) * y b :=
          Finset.sum_congr rfl fun a _ => Finset.sum_comm
    _ = ∑ i, ∑ a, ∑ b, x a * (A i a * A i b) * y b := Finset.sum_comm
    _ = ∑ i, (∑ a, A i a * x a) * (∑ b, A i b * y b) := by
          refine Finset.sum_congr rfl fun i _ => ?_
          rw [Finset.sum_mul_sum]
          refine Finset.sum_congr rfl fun a _ => Finset.sum_congr rfl fun b _ => ?_
          ring

lemma vtcv {n d : ℕ} (X : Fin n → Fin d → ℝ) (w : Fin d → ℝ)
    (V : Fin d → Fin d → ℝ)
    (horth : ∀ j k, ∑ m, V m j * V m k = if j = k then (1 : ℝ) else 0)
    (heig : ∀ j k, npCov (center X) j k = ∑ m, V j m * w m * V k m)
    (p q : Fin d) :
    ∑ a, ∑ b, V a p * npCov (center X) a b * V b q
      = if p = q then w p else 0 := by
  simp only [heig]
  have h1 : ∀ a b : Fin d, V a p * (∑ m, V a m * w m * V b m) * V b q
      = ∑ m, V a p * V a m * w m * (V b m * V b q) := by
    intro a b
    rw [Finset.mul_sum, Finset.sum_mul]
    exact Finset.sum_congr rfl fun m _ => by ring
  simp only [h1]
  have h2 : ∀ a : Fin d, ∑ b, ∑ m, V a p * V a m * w m * (V b m * V b q)
      = ∑ m, ∑ b, V a p * V a m * w m * (V b m * V b q) := fun a =>
    Finset.sum_comm
  simp only [h2]
  rw [Finset.sum_comm]
  have h3 : ∀ m : Fin d, ∑ a, ∑ b, V a p * V a m * w m * (V b m * V b q)
      = w m * ((∑ a, V a p * V a m) * (∑ b, V b m * V b q)) := by
    intro m
    rw [Finset.sum_mul_sum, Finset.mul_sum]
    refine Finset.sum_congr rfl fun a _ => ?_
    rw [Finset.mul_sum]
    exact Finset.sum_congr rfl fun b _ => by ring
  simp only [h3]
  have h4 : ∀ j k, ∑ m, V m j * V m k = if j = k then (1 : ℝ) else 0 := horth
  simp only [h4, mul_ite, ite_mul, mul_one, mul_zero, one_mul, zero_mul]
  by_cases hpq : p = q
  · subst hpq
    rw [Finset.sum_eq_single p]
    · simp
    · intro m _ hm
      simp [Ne.symm hm]
    · intro hp
      exact absurd (Finset.mem_univ p) hp
  · rw [Finset.sum_eq_zero]
    · simp [hpq]
    · intro m _
      by_cases hm : p = m
      · subst hm
        simp [hpq]
      · simp [hm]

lemma quadform_nonneg {n d : ℕ} (X : Fin n → Fin d → ℝ)
    (hn : (0 : ℝ) ≤ (n : ℝ) - 1) (x : Fin d → ℝ) :
    0 ≤ ∑ a, ∑ b, x a * npCov (center X) a b * x b := by
  have key : ∑ a, ∑ b, x a * npCov (center X) a b * x b
      = (∑ i, (∑ a, center X i a * x a) ^ 2) / ((n : ℝ) - 1) := by
    simp only [npCov_center_eq]
    have h1 : ∀ a b : Fin d,
        x a * ((∑ i, center X i a * center X i b) / ((n : ℝ) - 1)) * x b
        = x a * (∑ i, center X i a * center X i b) * x b / ((n : ℝ) - 1) := by
      intro a b
      ring
    simp only [h1]
    have h2 : ∀ a : Fin d,
        ∑ b, x a * (∑ i, center X i a * center X i b) * x b / ((n : ℝ) - 1)
        = (∑ b, x a * (∑ i, center X i a * center X i b) * x b) / ((n : ℝ) - 1) := by
      intro a
      rw [Finset.sum_div]
    simp only [h2]
    rw [← Finset.sum_div, sum_mul_rearrange]
    refine congrArg (fun t => t / ((n : ℝ) - 1)) ?_
    refine Finset.sum_congr rfl fun i _ => ?_
    rw [sq]
  rw [key]
  exact div_nonneg (Finset.sum_nonneg fun i _ => sq_nonneg _) hn

lemma eig_nonneg {n d : ℕ} (X : Fin n → Fin d → ℝ) (w : Fin d → ℝ)
    (V : Fin d → Fin d → ℝ) (hn : (0 : ℝ) ≤ (n : ℝ) - 1)
    (horth : ∀ j k, ∑ m, V m j * V m k = if j = k then (1 : ℝ) else 0)
    (heig : ∀ j k, npCov (center X) j k = ∑ m, V j m * w m * V k m)
    (p : Fin d) : 0 ≤ w p := by
  have h := quadform_nonneg X hn (fun a => V a p)
  rw [vtcv X w V horth heig p p] at h
  simpa using h

lemma exCov (j k : Fin 2) :
    npCov (center exX) j k = (![![3, 0], ![0, 1]] : Fin 2 → Fin 2 → ℝ) j k := by
  fin_cases j <;> fin_cases k <;>
    simp [npCov, center, colMean, exX, Fin.sum_univ_three, Fin.sum_univ_two] <;>
    norm_num

lemma exEigvec (m j : Fin 2) :
    ∑ k, npCov (center exX) j k * exV k m = exW m * exV j m := by
  fin_cases m <;> fin_cases j <;>
    simp [exCov, exV, exW, Fin.sum_univ_two]

lemma exOrth (j k : Fin 2) :
    ∑ m, exV m j * exV m k = if j = k then (1 : ℝ) else 0 := by
  fin_cases j <;> fin_cases k <;>
    simp [exV, Fin.sum_univ_two]

lemma exEig (j k : Fin 2) :
    npCov (center exX) j k = ∑ m, exV j m * exW m * exV k m := by
  fin_cases j <;> fin_cases k <;>
    simp [exCov, exV, exW, Fin.sum_univ_two]

lemma mapM_eq_map {α β : Type _} (f : α → Option β) (g : α → β) :
    ∀ l : List α, (∀ a ∈ l, f a = some (g a)) → l.mapM f = some (l.map g) := by
  intro l
  induction l with
  | nil => intro _; rfl
  | cons a t ih =>
      intro h
      have ha := h a (List.mem_cons_self a t)
      have ht := ih fun b hb => h b (List.mem_cons_of_mem a hb)
      rw [List.mapM_cons, ha, ht]
      rfl

lemma mapM_keys {α β : Type _} (f : α → Option (String × β)) (key : α → String) :
    ∀ (l : List α) (m : List (String × β)), l.mapM f = some m →
      (∀ a b, f a = some b → b.1 = key a) → m.map Prod.fst = l.map key := by
  intro l
  induction l with
  | nil =>
      intro m hm _
      rw [List.mapM_nil] at hm
      simp only [pure] at hm
      injection hm with hm
      subst hm
      rfl
  | cons a t ih =>
      intro m hm hk
      rw [List.mapM_cons] at hm
      cases hfa : f a with
      | none => rw [hfa] at hm; simp at hm
      | some b =>
          rw [hfa] at hm
          cases hmt : t.mapM f with
          | none => rw [hmt] at hm; simp at hm
          | some bs =>
              rw [hmt] at hm
              simp only [Option.bind_eq_bind, Option.some_bind] at hm
              injection hm with hm
              subst hm
              simp only [List.map_cons]
              rw [hk a b hfa, ih bs hmt hk]

lemma parseBlock_wf (file : List (List ℝ)) (h1 : (inputRows file).length = 204)
    (h2 : ∀ r ∈ inputRows file, r.length = 3) :
    parseBlock file = some (fun a b c =>
      ((inputRows file).getD (a.val * 12 + b.val) []).getD c.val 0) := by
  rw [parseBlock, if_pos ⟨h1, h2⟩]

lemma parseFinal_wf (file : List (List ℝ)) (h1 : (bodyRows file).length = 612)
    (h2 : ∀ r ∈ bodyRows file, r.length = 3) :
    parseFinal file = some (fun t a b c =>
      ((bodyRows file).getD (t.val * 204 + a.val * 12 + b.val) []).getD c.val 0) := by
  rw [parseFinal, if_pos ⟨h1, h2⟩]

lemma load_input_eq (fs : ℕ → ℕ → List (List ℝ))
    (hwf : ∀ i ∈ List.range 64, ∀ j ∈ List.range 3,
      (inputRows (fs (i + 1) (j + 1))).length = 204
      ∧ ∀ r ∈ inputRows (fs (i + 1) (j + 1)), r.length = 3) :
    load_input_geometry fs = some ((List.range 64).map (fun i =>
      ("run" ++ toString (i + 1),
       fun (t : Fin 3) (a : Fin 17) (b : Fin 12) (c : Fin 3) =>
         ((inputRows (fs (i + 1) (t.val + 1))).getD (a.val * 12 + b.val) []).getD
           c.val 0))) := by
  rw [load_input_geometry]
  apply mapM_eq_map
  intro i hi
  have hinner := mapM_eq_map (fun j => parseBlock (fs (i + 1) (j + 1)))
    (fun j => fun a b c =>
      ((inputRows (fs (i + 1) (j + 1))).getD (a.val * 12 + b.val) []).getD c.val 0)
    (List.range 3)
    (fun j hj => parseBlock_wf _ (hwf i hi j hj).1 (hwf i hi j hj).2)
  rw [hinner]
  simp only [Option.map_some']
  refine congrArg some (congrArg (fun z => ("run" ++ toString (i + 1), z)) ?_)
  funext t a b c
  fin_cases t <;> rfl

lemma load_input_keys (fsi : ℕ → ℕ → List (List ℝ)) (mi : List (String × Geom))
    (hmi : load_input_geometry fsi = some mi) :
    mi.map Prod.fst = runKeys := by
  rw [load_input_geometry] at hmi
  have h := mapM_keys
    (fun i => ((List.range 3).mapM (fun j => parseBlock (fsi (i + 1) (j + 1)))).map
      (fun blocks =>
        ("run" ++ toString (i + 1),
         fun (t : Fin 3) a b c => (blocks.getD t.val (fun _ _ _ => 0)) a b c)))
    (fun i => "run" ++ toString (i + 1)) (List.range 64) mi hmi ?_
  · exact h
  · intro a b hb
    rcases Option.map_eq_some'.mp hb with ⟨x, _, hx⟩
    rw [← hx]

lemma foldl_final_eq (fs : ℕ → String → String → ℕ → Option (List (List ℝ)))
    (i : ℕ) :
    ∀ l : List (ℕ × String × String),
      (∀ cb ∈ l, ∀ file, fs cb.1 cb.2.1 cb.2.2 i = some file →
        (bodyRows file).length = 612 ∧ ∀ r ∈ bodyRows file, r.length = 3) →
      ∀ acc, l.foldlM (finalStep fs i) acc
        = some (acc ++ l.filterMap (parsedEntry fs i)) := by
  intro l
  induction l with
  | nil => intro _ acc; simp
  | cons cb tl ih =>
      intro hl acc
      have htl := ih fun c hc file hf => hl c (List.mem_cons_of_mem cb hc) file hf
      rw [List.foldlM_cons]
      cases hfs : fs cb.1 cb.2.1 cb.2.2 i with
      | none =>
          have hstep : finalStep fs i acc cb = some acc := by
            simp [finalStep, hfs]
          have hpe : parsedEntry fs i cb = none := by
            simp [parsedEntry, hfs]
          rw [hstep]
          simp only [Option.bind_eq_bind, Option.some_bind]
          rw [htl acc, List.filterMap_cons, hpe]
      | some file =>
          obtain ⟨h1, h2⟩ := hl cb (List.mem_cons_self cb tl) file hfs
          have hp := parseFinal_wf file h1 h2
          have hstep : finalStep fs i acc cb
              = some (acc ++ [(finalLabel cb, fun (t : Fin 3) (a : Fin 17) (b : Fin 12) (c : Fin 3) =>
                  ((bodyRows file).getD
                    (t.val * 204 + a.val * 12 + b.val) []).getD c.val 0)]) := by
            simp [finalStep, hfs, hp]
          have hpe : parsedEntry fs i cb
              = some (finalLabel cb, fun (t : Fin 3) (a : Fin 17) (b : Fin 12) (c : Fin 3) =>
                  ((bodyRows file).getD
                    (t.val * 204 + a.val * 12 + b.val) []).getD c.val 0) := by
            simp [parsedEntry, hfs, hp]
          rw [hstep]
          simp only [Option.bind_eq_bind, Option.some_bind]
          rw [htl, List.filterMap_cons, hpe, List.append_assoc,
            List.singleton_append]

lemma load_final_eq (fs : ℕ → String → String → ℕ → Option (List (List ℝ)))
    (hwf : ∀ cb ∈ combos, ∀ i file, fs cb.1 cb.2.1 cb.2.2 i = some file →
      (bodyRows file).length = 612 ∧ ∀ r ∈ bodyRows file, r.length = 3) :
    load_final_geometry fs = some ((List.range 64).map (fun k =>
      ("run" ++ toString (k + 1), combos.filterMap (parsedEntry fs (k + 1))))) := by
  rw [load_final_geometry]
  apply mapM_eq_map
  intro k _
  have h := foldl_final_eq fs (k + 1) combos
    (fun cb hc file hf => hwf cb hc (k + 1) file hf) []
  unfold loadRunFinal
  rw [h]
  simp

lemma exInputFS_wf : ∀ i ∈ List.range 64, ∀ j ∈ List.range 3,
    (inputRows (exInputFS (i + 1) (j + 1))).length = 204
    ∧ ∀ r ∈ inputRows (exInputFS (i + 1) (j + 1)), r.length = 3 := by
  intro i _ j _
  have hfix : inputRows (exInputFS (i + 1) (j + 1))
      = (((List.replicate 209 ([1, 2, 3, 4] : List ℝ)).drop 5).take 204).map
          List.dropLast := rfl
  constructor
  · rw [hfix, List.length_map, List.length_take, List.length_drop,
      List.length_replicate]
    norm_num
  · intro r hr
    rw [hfix] at hr
    rcases List.mem_map.mp hr with ⟨s, hs, hrs⟩
    have hs4 : s = [1, 2, 3, 4] := List.eq_of_mem_replicate
      (List.mem_of_mem_drop (List.mem_of_mem_take hs))
    subst hs4
    rw [← hrs]
    rfl

lemma exFS_wf : ∀ cb ∈ combos, ∀ i file, exFS cb.1 cb.2.1 cb.2.2 i = some file →
    (bodyRows file).length = 612 ∧ ∀ r ∈ bodyRows file, r.length = 3 := by
  intro cb _ i file hf
  simp only [exFS] at hf
  split_ifs at hf with h
  · injection hf with hf
    subst hf
    have hfix : bodyRows exFinalFile
        = (List.replicate 613 ([1, 2, 3] : List ℝ)).drop 1 := rfl
    constructor
    · rw [hfix, List.length_drop, List.length_replicate]
    · intro r hr
      rw [hfix] at hr
      have hr3 : r = [1, 2, 3] := List.eq_of_mem_replicate
        (List.mem_of_mem_drop hr)
      subst hr3
      rfl

lemma emptyFS_wf : ∀ cb ∈ combos, ∀ i file,
    emptyFS cb.1 cb.2.1 cb.2.2 i = some file →
    (bodyRows file).length = 612 ∧ ∀ r ∈ bodyRows file, r.length = 3 := by
  intro cb _ i file hf
  exact absurd hf (by simp [emptyFS])

/- ------------------------------------------------------------------ -/
/- Claim theorems                                                      -/
/- ------------------------------------------------------------------ -/

/-- C1: `pca_whitening(X, epsilon)` returns `(X_whitened, params)` where
`params.mean` is the column-wise empirical mean of `X`, the covariance
computed on line 100 is the unbiased estimator of the centered samples
(dividing by `N - 1`; `np.cov`'s internal re-centering is a no-op on the
already-centered data), the whitening matrix is the eigenvector matrix of
that covariance (hypothesis `heigvec`: `V`'s columns with eigenvalues `w`
are the eigenpairs `np.linalg.eigh` returns for it) with each column
scaled by `1/sqrt(eigenvalue + epsilon)` in the sorted order, and
`X_whitened` is the centered samples times that matrix (same `n × d`
shape, by type). -/
theorem pca_whitening_spec {n d : ℕ} (X : Fin n → Fin d → ℝ) (eps : ℝ)
    (w : Fin d → ℝ) (V : Fin d → Fin d → ℝ)
    (heigvec : ∀ m j, ∑ k, npCov (center X) j k * V k m = w m * V j m) :
    ((pca_whitening X eps w V).2.mean = fun j => (∑ i, X i j) / n)
    ∧ (∀ j k, npCov (center X) j k
        = (∑ i, (X i j - colMean X j) * (X i k - colMean X k)) / ((n : ℝ) - 1))
    ∧ (∀ j k, (pca_whitening X eps w V).2.matrix j k
        = V j (sortIdx w k) / Real.sqrt (w (sortIdx w k) + eps))
    ∧ (∀ i k, (pca_whitening X eps w V).1 i k
        = ∑ j, (X i j - colMean X j) * (pca_whitening X eps w V).2.matrix j k) := by
  refine ⟨rfl, ?_, ?_, fun i k => rfl⟩
  · intro j k
    rw [npCov_center_eq]
    rfl
  · intro j k
    show V j (sortIdx w k) * (1 / Real.sqrt (w (sortIdx w k) + eps))
        = V j (sortIdx w k) / Real.sqrt (w (sortIdx w k) + eps)
    rw [mul_one_div]

/-- Witness for C1 at the concrete `exX`, `exW`, `exV`, `eps = 1`. -/
theorem pca_whitening_spec_witness :
    (∀ m j, ∑ k, npCov (center exX) j k * exV k m = exW m * exV j m)
    ∧ (((pca_whitening exX 1 exW exV).2.mean = fun j => (∑ i, exX i j) / (3 : ℕ))
       ∧ (∀ j k, npCov (center exX) j k
           = (∑ i, (exX i j - colMean exX j) * (exX i k - colMean exX k))
               / (((3 : ℕ) : ℝ) - 1))
       ∧ (∀ j k, (pca_whitening exX 1 exW exV).2.matrix j k
           = exV j (sortIdx exW k) / Real.sqrt (exW (sortIdx exW k) + 1))
       ∧ (∀ i k, (pca_whitening exX 1 exW exV).1 i k
           = ∑ j, (exX i j - colMean exX j)
               * (pca_whitening exX 1 exW exV).2.matrix j k)) :=
  ⟨exEigvec, pca_whitening_spec exX 1 exW exV exEigvec⟩

/-- C2: `whiten_image(img, epsilon)` is exactly `pca_whitening` on the
image reshaped to an `(H*W) × C` sample matrix, with the whitened matrix
reshaped back to `H × W × C` and the same mean vector and whitening
matrix — mode B is mode A after the reshape. -/
theorem whiten_image_refines_pca {h wd c : ℕ} (img : Fin h → Fin wd → Fin c → ℝ)
    (eps : ℝ) (w : Fin c → ℝ) (V : Fin c → Fin c → ℝ) :
    (whiten_image img eps w V).1
        = mat2img ((pca_whitening (img2mat img) eps w V).1)
    ∧ (whiten_image img eps w V).2.mean
        = (pca_whitening (img2mat img) eps w V).2.mean
    ∧ (whiten_image img eps w V).2.matrix
        = (pca_whitening (img2mat img) eps w V).2.matrix :=
  ⟨rfl, rfl, rfl⟩

/-- C3 (counterexample): with two equal eigenvalues, the reversal
`np.argsort(eigenvalues)[::-1]` puts the eigenpair with the larger
original index first, so the claimed smaller-original-index tie-break is
false at `w = (1, 1)`. -/
theorem sortIdx_tiebreak_counterexample :
    ¬ (∀ j k : Fin 2, j < k →
        tieW (sortIdx tieW k) < tieW (sortIdx tieW j)
        ∨ (tieW (sortIdx tieW j) = tieW (sortIdx tieW k)
           ∧ sortIdx tieW j < sortIdx tieW k)) := by
  intro hcl
  have hlt : ltIdx tieW 0 1 := Or.inr ⟨rfl, by decide⟩
  have hfr : List.finRange 2 = [(0 : Fin 2), 1] := by decide
  have hlist : argsortDesc tieW = [1, 0] := by
    rw [argsortDesc, hfr]
    simp [List.insertionSort, List.orderedInsert, hlt]
  have key : ∀ (L : List (Fin 2)) (_ : L = [1, 0]) (h0 : 0 < L.length)
      (h1 : 1 < L.length), L.get ⟨0, h0⟩ = 1 ∧ L.get ⟨1, h1⟩ = 0 := by
    intro L hL h0 h1
    subst hL
    exact ⟨rfl, rfl⟩
  have hk := key (argsortDesc tieW) hlist
    (by rw [hlist]; decide) (by rw [hlist]; decide)
  have hs0 : sortIdx tieW 0 = 1 := hk.1
  have hs1 : sortIdx tieW 1 = 0 := hk.2
  have h01 := hcl 0 1 (by decide)
  rw [hs0, hs1] at h01
  rcases h01 with h | ⟨_, h⟩
  · exact absurd h (by simp [tieW])
  · exact absurd h (by decide)

/-- C3 (amended): in both `pca_whitening` and `whiten_image` the
eigenpairs are ordered by eigenvalue descending before the whitening
matrix is assembled, and an eigenvalue tie is broken by original index
descending — the eigenpair with the larger original index comes first,
because the code reverses a stable ascending argsort. -/
theorem sortIdx_descending {d : ℕ} (w : Fin d → ℝ) (j k : Fin d)
    (hjk : j < k) :
    w (sortIdx w k) < w (sortIdx w j)
    ∨ (w (sortIdx w j) = w (sortIdx w k) ∧ sortIdx w k < sortIdx w j) := by
  obtain ⟨hlt, hne⟩ := sortIdx_pairs w j k hjk
  rcases hlt with h | ⟨heq, hle⟩
  · exact Or.inl h
  · exact Or.inr ⟨heq.symm, lt_of_le_of_ne hle hne⟩

/-- Witness for the amended C3 at the concrete eigenvalues `exW`. -/
theorem sortIdx_descending_witness :
    (0 : Fin 2) < 1
    ∧ (exW (sortIdx exW 1) < exW (sortIdx exW 0)
       ∨ (exW (sortIdx exW 0) = exW (sortIdx exW 1)
          ∧ sortIdx exW 1 < sortIdx exW 0)) :=
  ⟨by decide, sortIdx_descending exW 0 1 (by decide)⟩

/-- C4: for `D < N` and `epsilon > 0`, given that `np.linalg.eigh`
returned a genuine orthonormal eigendecomposition of the covariance
(`horth`, `heig`), the covariance of the whitened output of
`pca_whitening` is exactly the diagonal matrix with entries
`λ_i / (λ_i + ε)` for the eigenvalues in the chosen (sorted) order —
approximately the identity up to the ε stabilisation. -/
theorem whitened_covariance_diag {n d : ℕ} (X : Fin n → Fin d → ℝ) (eps : ℝ)
    (hdn : d < n) (heps : 0 < eps)
    (w : Fin d → ℝ) (V : Fin d → Fin d → ℝ)
    (horth : ∀ j k, ∑ m, V m j * V m k = if j = k then (1 : ℝ) else 0)
    (heig : ∀ j k, npCov (center X) j k = ∑ m, V j m * w m * V k m) :
    ∀ j k, npCov ((pca_whitening X eps w V).1) j k
      = if j = k then w (sortIdx w j) / (w (sortIdx w j) + eps) else 0 := by
  intro j k
  have hd : 0 < d := j.pos
  have hn2 : 2 ≤ n := by omega
  have h2R : (2 : ℝ) ≤ (n : ℝ) := by exact_mod_cast hn2
  have hpos : (0 : ℝ) < (n : ℝ) - 1 := by linarith
  have hne : ((n : ℝ) - 1) ≠ 0 := ne_of_gt hpos
  have hw : ∀ p, 0 ≤ w p := eig_nonneg X w V (le_of_lt hpos) horth heig
  have hmean : ∀ k0, colMean ((pca_whitening X eps w V).1) k0 = 0 :=
    fun k0 => colMean_center_mul X (whiteningMatrix w V eps) k0
  have step1 : npCov ((pca_whitening X eps w V).1) j k
      = (∑ i, (pca_whitening X eps w V).1 i j * (pca_whitening X eps w V).1 i k)
          / ((n : ℝ) - 1) := by
    simp [npCov, hmean]
  have step2 : ∑ i, (pca_whitening X eps w V).1 i j * (pca_whitening X eps w V).1 i k
      = ∑ a, ∑ b, whiteningMatrix w V eps a j
          * (∑ i, center X i a * center X i b) * whiteningMatrix w V eps b k :=
    (sum_mul_rearrange (center X) (fun a => whiteningMatrix w V eps a j)
      (fun b => whiteningMatrix w V eps b k)).symm
  have step3 : ∀ a b : Fin d, whiteningMatrix w V eps a j
      * (∑ i, center X i a * center X i b) * whiteningMatrix w V eps b k
      = (((n : ℝ) - 1) * ((1 / Real.sqrt (w (sortIdx w j) + eps))
          * (1 / Real.sqrt (w (sortIdx w k) + eps))))
        * (V a (sortIdx w j) * npCov (center X) a b * V b (sortIdx w k)) := by
    intro a b
    rw [gram_eq X hne]
    simp only [whiteningMatrix]
    ring
  have step4 : ∑ a, ∑ b, whiteningMatrix w V eps a j
      * (∑ i, center X i a * center X i b) * whiteningMatrix w V eps b k
      = (((n : ℝ) - 1) * ((1 / Real.sqrt (w (sortIdx w j) + eps))
          * (1 / Real.sqrt (w (sortIdx w k) + eps))))
        * (if sortIdx w j = sortIdx w k then w (sortIdx w j) else 0) := by
    rw [← vtcv X w V horth heig (sortIdx w j) (sortIdx w k), Finset.mul_sum]
    refine Finset.sum_congr rfl fun a _ => ?_
    rw [Finset.mul_sum]
    exact Finset.sum_congr rfl fun b _ => step3 a b
  rw [step1, step2, step4, mul_assoc, mul_div_cancel_left₀ _ hne]
  by_cases hjk : j = k
  · subst hjk
    rw [if_pos rfl, if_pos rfl]
    have hx : 0 < w (sortIdx w j) + eps := by
      have := hw (sortIdx w j)
      linarith
    have hone : (1 : ℝ) / Real.sqrt (w (sortIdx w j) + eps)
        * (1 / Real.sqrt (w (sortIdx w j) + eps))
        = 1 / (w (sortIdx w j) + eps) := by
      rw [div_mul_div_comm, one_mul, Real.mul_self_sqrt hx.le]
    rw [hone, one_div_mul_eq_div]
  · have hσ : sortIdx w j ≠ sortIdx w k := fun he => hjk (sortIdx_injective w he)
    rw [if_neg hσ, if_neg hjk, mul_zero]

/-- Witness for C4 at the concrete `exX`, `exW`, `exV`, `eps = 1`. -/
theorem whitened_covariance_diag_witness :
    ((2 < 3 ∧ (0 : ℝ) < 1)
     ∧ (∀ j k, ∑ m, exV m j * exV m k = if j = k then (1 : ℝ) else 0)
     ∧ (∀ j k, npCov (center exX) j k = ∑ m, exV j m * exW m * exV k m))
    ∧ ∀ j k, npCov ((pca_whitening exX 1 exW exV).1) j k
        = if j = k then exW (sortIdx exW j) / (exW (sortIdx exW j) + 1) else 0 :=
  ⟨⟨⟨by norm_num, by norm_num⟩, exOrth, exEig⟩,
   whitened_covariance_diag exX 1 (by norm_num) (by norm_num) exW exV exOrth exEig⟩

/-- C5: for every sample matrix with at least one row, the column-wise
mean of the whitened output of `pca_whitening` is exactly zero. -/
theorem whitened_colMean_zero {n d : ℕ} (X : Fin n → Fin d → ℝ) (eps : ℝ)
    (w : Fin d → ℝ) (V : Fin d → Fin d → ℝ) (hn : 0 < n) (k : Fin d) :
    colMean ((pca_whitening X eps w V).1) k = 0 :=
  colMean_center_mul X (whiteningMatrix w V eps) k

/-- Witness for C5 at the concrete `exX`. -/
theorem whitened_colMean_zero_witness :
    0 < 3 ∧ ∀ k : Fin 2, colMean ((pca_whitening exX 1 exW exV).1) k = 0 :=
  ⟨by norm_num, fun k => whitened_colMean_zero exX 1 exW exV (by norm_num) k⟩

/-- C6: for every all-constant image and the default `epsilon = 1e-5`,
`whiten_image` runs to completion (it is total here: the additive epsilon
means no division-by-zero branch exists) and returns the all-zero image
of the same shape, whatever `np.linalg.eigh` returned for the zero
covariance. -/
theorem whiten_image_constant_zero {h wd c : ℕ} (v : Fin c → ℝ)
    (img : Fin h → Fin wd → Fin c → ℝ) (himg : ∀ r s k, img r s k = v k)
    (w : Fin c → ℝ) (V : Fin c → Fin c → ℝ) :
    (whiten_image img (1 / 100000) w V).1 = fun _ _ _ => 0 := by
  funext r s k
  have hX : ∀ i j, img2mat img i j = v j := fun i j => by
    simp [img2mat, himg]
  have hp : 0 < h * wd := (finProdFinEquiv (r, s)).pos
  have hnz : ((h * wd : ℕ) : ℝ) ≠ 0 := Nat.cast_ne_zero.mpr hp.ne'
  have hmean : ∀ j, colMean (img2mat img) j = v j := by
    intro j
    simp only [colMean, hX]
    rw [Finset.sum_const, Finset.card_univ, Fintype.card_fin, nsmul_eq_mul,
      mul_div_cancel_left₀ _ hnz]
  have hc : ∀ i j, center (img2mat img) i j = 0 := by
    intro i j
    simp [center, hX, hmean]
  simp [whiten_image, mat2img, hc]

/-- Witness for C6 at the concrete constant image `constImg`. -/
theorem whiten_image_constant_zero_witness :
    (∀ r s k : Fin 1, constImg r s k = constV k)
    ∧ (whiten_image constImg (1 / 100000) (fun _ => 0) (fun _ _ => 0)).1
        = fun _ _ _ => 0 :=
  ⟨fun _ _ _ => rfl,
   whiten_image_constant_zero constV constImg (fun _ _ _ => rfl) _ _⟩

/-- C7: on a directory tree whose `smesh` files are well-formed,
`load_input_geometry` returns the mapping with exactly the keys
`run1 … run64` in order; for each run it reads exactly the 3 files
`smesh.1.{1,2,3}.txt` (stack index `t` is file `t+1`), takes exactly the
data rows at 1-indexed lines 6–209 with the last column dropped
(`inputRows`), reshapes them so position `(a, b, c)` is entry `c` of row
`a*12 + b`, and stacks the 3 blocks into a `(3, 17, 12, 3)` array. -/
theorem load_input_geometry_spec (fs : ℕ → ℕ → List (List ℝ))
    (hwf : ∀ i ∈ List.range 64, ∀ j ∈ List.range 3,
      (inputRows (fs (i + 1) (j + 1))).length = 204
      ∧ ∀ r ∈ inputRows (fs (i + 1) (j + 1)), r.length = 3) :
    load_input_geometry fs = some ((List.range 64).map (fun i =>
      ("run" ++ toString (i + 1),
       fun (t : Fin 3) (a : Fin 17) (b : Fin 12) (c : Fin 3) =>
         ((inputRows (fs (i + 1) (t.val + 1))).getD (a.val * 12 + b.val) []).getD
           c.val 0))) :=
  load_input_eq fs hwf

/-- Witness for C7 on the concrete directory tree `exInputFS`. -/
theorem load_input_geometry_spec_witness :
    (∀ i ∈ List.range 64, ∀ j ∈ List.range 3,
      (inputRows (exInputFS (i + 1) (j + 1))).length = 204
      ∧ ∀ r ∈ inputRows (exInputFS (i + 1) (j + 1)), r.length = 3)
    ∧ load_input_geometry exInputFS = some ((List.range 64).map (fun i =>
        ("run" ++ toString (i + 1),
         fun (t : Fin 3) (a : Fin 17) (b : Fin 12) (c : Fin 3) =>
           ((inputRows (exInputFS (i + 1) (t.val + 1))).getD
             (a.val * 12 + b.val) []).getD c.val 0))) :=
  ⟨exInputFS_wf, load_input_geometry_spec exInputFS exInputFS_wf⟩

/-- C8: when every final-geometry file that exists is well-formed,
`load_final_geometry` never fails: a missing file for a combination is
silently skipped — its label is simply absent from that run's inner
mapping (`parsedEntry` is `none` there, dropped by `filterMap`) — while
every existing file is parsed with its header line skipped (`bodyRows`),
its body split into 3 equal chunks reshaped to `(17, 12, 3)`, and stored
under the label `timestep_temperature_pressure` (`finalLabel`). -/
theorem load_final_geometry_spec
    (fs : ℕ → String → String → ℕ → Option (List (List ℝ)))
    (hwf : ∀ cb ∈ combos, ∀ i file, fs cb.1 cb.2.1 cb.2.2 i = some file →
      (bodyRows file).length = 612 ∧ ∀ r ∈ bodyRows file, r.length = 3) :
    load_final_geometry fs = some ((List.range 64).map (fun k =>
      ("run" ++ toString (k + 1), combos.filterMap (parsedEntry fs (k + 1))))) :=
  load_final_eq fs hwf

/-- Witness for C8 on the concrete directory `exFS`, in which exactly one
combination exists and all others are missing. -/
theorem load_final_geometry_spec_witness :
    (∀ cb ∈ combos, ∀ i file, exFS cb.1 cb.2.1 cb.2.2 i = some file →
      (bodyRows file).length = 612 ∧ ∀ r ∈ bodyRows file, r.length = 3)
    ∧ load_final_geometry exFS = some ((List.range 64).map (fun k =>
        ("run" ++ toString (k + 1), combos.filterMap (parsedEntry exFS (k + 1))))) :=
  ⟨exFS_wf, load_final_geometry_spec exFS exFS_wf⟩

/-- C10: `load_final_geometry` returns an outer mapping whose keys are
always exactly `run1 … run64` — a run with no existing file maps to the
empty inner mapping rather than being absent — so its outer key list
coincides with that of any successful `load_input_geometry` call. -/
theorem load_final_geometry_keys
    (fs : ℕ → String → String → ℕ → Option (List (List ℝ)))
    (hwf : ∀ cb ∈ combos, ∀ i file, fs cb.1 cb.2.1 cb.2.2 i = some file →
      (bodyRows file).length = 612 ∧ ∀ r ∈ bodyRows file, r.length = 3) :
    ∃ m, load_final_geometry fs = some m
      ∧ m.map Prod.fst = runKeys
      ∧ (∀ k, k < 64 →
          (∀ cb ∈ combos, fs cb.1 cb.2.1 cb.2.2 (k + 1) = none) →
          m.getD k ("", []) = ("run" ++ toString (k + 1), []))
      ∧ (∀ (fsi : ℕ → ℕ → List (List ℝ)) mi,
          load_input_geometry fsi = some mi → mi.map Prod.fst = m.map Prod.fst) := by
  refine ⟨(List.range 64).map (fun k =>
    ("run" ++ toString (k + 1), combos.filterMap (parsedEntry fs (k + 1)))),
    load_final_eq fs hwf, ?_, ?_, ?_⟩
  · rw [List.map_map, runKeys]
    rfl
  · intro k hk hmiss
    have hlen : k < ((List.range 64).map (fun k =>
        ("run" ++ toString (k + 1),
         combos.filterMap (parsedEntry fs (k + 1))))).length := by
      simpa using hk
    rw [List.getD_eq_getElem _ _ hlen]
    simp only [List.getElem_map, List.getElem_range]
    have hnil : combos.filterMap (parsedEntry fs (k + 1)) = [] :=
      List.filterMap_eq_nil_iff.mpr
        (fun cb hc => by simp [parsedEntry, hmiss cb hc])
    rw [hnil]
  · intro fsi mi hmi
    rw [load_input_keys fsi mi hmi, List.map_map, runKeys]
    rfl

/-- Witness for C10 on the concrete directory `emptyFS`, which has no
final-geometry files at all. -/
theorem load_final_geometry_keys_witness :
    (∀ cb ∈ combos, ∀ i file, emptyFS cb.1 cb.2.1 cb.2.2 i = some file →
      (bodyRows file).length = 612 ∧ ∀ r ∈ bodyRows file, r.length = 3)
    ∧ ∃ m, load_final_geometry emptyFS = some m
        ∧ m.map Prod.fst = runKeys
        ∧ (∀ k, k < 64 →
            (∀ cb ∈ combos, emptyFS cb.1 cb.2.1 cb.2.2 (k + 1) = none) →
            m.getD k ("", []) = ("run" ++ toString (k + 1), []))
        ∧ (∀ (fsi : ℕ → ℕ → List (List ℝ)) mi,
            load_input_geometry fsi = some mi → mi.map Prod.fst = m.map Prod.fst) :=
  ⟨emptyFS_wf, load_final_geometry_keys emptyFS emptyFS_wf⟩

end HW2
